import Mathlib

/-!
Verification of the module lifecycle and dependency-resolution runtime
(alphaid-bot). Shallow embedding of:

* `src/types/ModuleLoader/ModuleBase.new.ts` — the Record (keeper) state
  machine: `construct`, `initialize`, `unload`, the construction and
  initialization lockers, the pending-state map;
* `src/types/ModuleLoader/ModuleLoader.new.ts` — the bulk operations
  `constructAll`, `initAll`, `unloadAll` and the dependency linker
  `_linkAll`;
* `src/types/ModuleLoader/Discovery` — `normalizeFileName`,
  `pathPrecaution`, `moduleInDirectory`;
* `src/types/ModuleLoader/PrivateInterface.ts` — `getPendingState`,
  `isPendingInitialization`;
* the external `semver` library at its boundary: version comparison,
  range satisfaction, `maxSatisfying` (restricted to exact, caret and
  at-least ranges, which suffices for the properties below).

Modules are numbered by `Nat`. JavaScript promises are modelled as
sequential execution; exceptions are modelled by an error component that
is returned together with the mutated state, because in the source a
thrown exception does not roll back mutations already performed.
-/

namespace AlphaidBot

/-! Kernel-computable string primitives.  The JavaScript string
operations the source uses (`startsWith`, `endsWith`, `slice`, split,
number parsing) are modelled over the character list of a `String`, so
that every definition below evaluates inside the kernel. -/

namespace Str

/-- JavaScript `a.startsWith(b)`. -/
def startsWith (s pre : String) : Bool := pre.data.isPrefixOf s.data

/-- JavaScript `a.endsWith(b)`. -/
def endsWith (s suf : String) : Bool := suf.data.isSuffixOf s.data

/-- Drop the first `n` characters (JavaScript `slice(n)`). -/
def drop (s : String) (n : Nat) : String := ⟨s.data.drop n⟩

/-- Drop the last `n` characters (JavaScript `slice(0, -n)`). -/
def dropRight (s : String) (n : Nat) : String := ⟨s.data.take (s.data.length - n)⟩

/-- Split a character list at every occurrence of the separator. -/
def splitListOn (c : Char) : List Char → List (List Char)
  | [] => [[]]
  | ch :: rest =>
    let r := splitListOn c rest
    if ch = c then [] :: r
    else
      match r with
      | [] => [[ch]]
      | h :: t => (ch :: h) :: t

/-- Split a string at every occurrence of the separator character. -/
def splitOnChar (c : Char) (s : String) : List String :=
  (splitListOn c s.data).map String.mk

/-- Value of a decimal digit. -/
def digitVal (c : Char) : Option Nat :=
  if '0' ≤ c ∧ c ≤ '9' then some (c.toNat - '0'.toNat) else none

/-- Accumulating decimal parse. -/
def toNatGo : List Char → Nat → Option Nat
  | [], acc => some acc
  | c :: rest, acc =>
    match digitVal c with
    | none => none
    | some d => toNatGo rest (acc * 10 + d)

/-- Parse a non-empty all-digit string as a natural number. -/
def toNat (s : String) : Option Nat :=
  match s.data with
  | [] => none
  | l => toNatGo l 0

/-- Join strings with a separator character between them. -/
def intercalateChar (c : Char) : List String → String
  | [] => ""
  | [s] => s
  | s :: rest => s ++ String.mk [c] ++ intercalateChar c rest

end Str

instance {ε α : Type} [DecidableEq ε] [DecidableEq α] : DecidableEq (Except ε α) := fun a b =>
  match a, b with
  | .error e, .error f =>
    if h : e = f then isTrue (by rw [h]) else isFalse (fun hh => by cases hh; exact h rfl)
  | .error _, .ok _ => isFalse (fun hh => by cases hh)
  | .ok _, .error _ => isFalse (fun hh => by cases hh)
  | .ok x, .ok y =>
    if h : x = y then isTrue (by rw [h]) else isFalse (fun hh => by cases hh; exact h rfl)

/-- ModuleLoadState from Interfaces.new.ts (the source never assigns
`Initializing`, but the enum member exists). -/
inductive ModuleLoadState
  | Prototype
  | Constructed
  | Initializing
  | Initialized
  | Unloaded
  | Failure
deriving DecidableEq, Repr

/-- PENDING_STATES values: "unload" or "initialization". -/
inductive PendingState
  | unload
  | initialization
deriving DecidableEq, Repr

/-- Observable events of a run, in order of occurrence: the `constructed`
and `initialized` events emitted by ModuleBase, and each invocation of a
module instance's `unload` hook together with the reason it receives. -/
inductive Event
  | constructed (i : Nat)
  | initialized (i : Nat)
  | unloadHook (i : Nat) (reason : String)
deriving DecidableEq, Repr

/-- The static dependency graph wired by the linker: `dependencies i` is
the `_dependencies` array of record `i`, `dependents i` its
`_dependents` array. -/
structure ModuleGraph where
  dependencies : Nat → List Nat
  dependents : Nat → List Nat

/-- Behaviour of the module code invoked by the keeper (the loaded entry
file and the instance hooks): whether loading/instantiating the entry
succeeds and yields an instance with an `unload` function
(`constructOk`), whether the optional `init` hook returns without
throwing (`initOk`; `true` also when the hook is absent), and what the
`unload` hook does (`none` = throws, `some b` = resolves with `b`). -/
structure ModuleBehavior where
  constructOk : Nat → Bool
  initOk : Nat → Bool
  unloadResult : Nat → Option Bool

/-- Mutable state of all records: `_state`, whether `_base` is set, the
CONSTRUCTION_LOCKER and INITIALIZATION_LOCKER memberships, the
PENDING_STATES map, and the event trace of the run. -/
structure Sys where
  state : Nat → ModuleLoadState
  hasBase : Nat → Bool
  constructionLocker : Nat → Bool
  initLocker : Nat → Bool
  pending : Nat → Option PendingState
  trace : List Event

/-- Pointwise update of a `Nat`-indexed map. -/
def setF {α : Type} (f : Nat → α) (i : Nat) (a : α) : Nat → α :=
  fun j => if j = i then a else f j

/-- Errors thrown by the phase methods.  `outOfFuel` is an artefact of
the embedding: the source recursion is unbounded (a dependency cycle
overflows the JavaScript stack), so each embedded call consumes fuel. -/
inductive LoadError
  | notPrototype
  | alreadyConstructing
  | notConstructed
  | alreadyInitializing
  | notLoaded
  | depFailed
  | constructHookThrew
  | initHookThrew
  | outOfFuel
deriving DecidableEq, Repr

mutual

/-- ModuleBase.construct (ModuleBase.new.ts lines 141-207).  Checks the
Prototype state, checks the CONSTRUCTION_LOCKER (which, in the source,
is never added to), constructs dependencies still in Prototype (failing
fast on a Failure dependency), then loads and instantiates the entry;
on success sets `_base`, moves to Constructed, deletes the (never taken)
locker entry and emits `constructed`; on a hook error moves to Failure
and rethrows. -/
def construct (beh : ModuleBehavior) (g : ModuleGraph) (fuel : Nat) (i : Nat) (s : Sys) :
    Except LoadError Unit × Sys :=
  match fuel with
  | 0 => (.error .outOfFuel, s)
  | fuel + 1 =>
    if s.state i ≠ ModuleLoadState.Prototype then (.error .notPrototype, s)
    else if s.constructionLocker i then (.error .alreadyConstructing, s)
    else
      match constructDeps beh g fuel (g.dependencies i) s with
      | (.error e, s1) => (.error e, s1)
      | (.ok _, s1) =>
        if beh.constructOk i then
          (.ok (), { s1 with
            hasBase := setF s1.hasBase i true,
            state := setF s1.state i ModuleLoadState.Constructed,
            constructionLocker := setF s1.constructionLocker i false,
            trace := s1.trace ++ [Event.constructed i] })
        else
          (.error .constructHookThrew,
            { s1 with state := setF s1.state i ModuleLoadState.Failure })

/-- The dependency loop of ModuleBase.construct (lines 152-162):
dependencies in Prototype are constructed, a Failure dependency aborts,
anything else is skipped. -/
def constructDeps (beh : ModuleBehavior) (g : ModuleGraph) (fuel : Nat) (deps : List Nat)
    (s : Sys) : Except LoadError Unit × Sys :=
  match fuel with
  | 0 => (.error .outOfFuel, s)
  | fuel + 1 =>
    match deps with
    | [] => (.ok (), s)
    | d :: rest =>
      if s.state d = ModuleLoadState.Prototype then
        match construct beh g fuel d s with
        | (.error e, s1) => (.error e, s1)
        | (.ok _, s1) => constructDeps beh g fuel rest s1
      else if s.state d = ModuleLoadState.Failure then (.error .depFailed, s)
      else constructDeps beh g fuel rest s

end

mutual

/-- ModuleBase.initialize (ModuleBase.new.ts lines 214-266).  Checks the
Constructed state and the INITIALIZATION_LOCKER, adds itself to the
locker, settles dependencies, sets the pending-initialization flag and
runs the `init` hook.  On success moves to Initialized, removes the
locker entry and pending flag and emits `initialized`.  When the hook
throws, the catch block only re-emits and rethrows: the state stays
Constructed and neither the locker entry nor the pending flag is
removed. -/
def initializeMod (beh : ModuleBehavior) (g : ModuleGraph) (fuel : Nat) (i : Nat) (s : Sys) :
    Except LoadError Unit × Sys :=
  match fuel with
  | 0 => (.error .outOfFuel, s)
  | fuel + 1 =>
    if s.state i ≠ ModuleLoadState.Constructed then (.error .notConstructed, s)
    else if s.initLocker i then (.error .alreadyInitializing, s)
    else
      let sl : Sys := { s with initLocker := setF s.initLocker i true }
      match initDeps beh g fuel (g.dependencies i) sl with
      | (.error e, s1) => (.error e, s1)
      | (.ok _, s1) =>
        let sp : Sys := { s1 with pending := setF s1.pending i (some PendingState.initialization) }
        if sp.hasBase i && !beh.initOk i then
          (.error .initHookThrew, sp)
        else
          (.ok (), { sp with
            state := setF sp.state i ModuleLoadState.Initialized,
            initLocker := setF sp.initLocker i false,
            pending := setF sp.pending i none,
            trace := sp.trace ++ [Event.initialized i] })

/-- The dependency loop of ModuleBase.initialize (lines 227-239): a
Prototype dependency is first constructed; then (a separate `if` in the
source) a Constructed dependency is initialized, a Failure dependency
aborts, anything else is skipped. -/
def initDeps (beh : ModuleBehavior) (g : ModuleGraph) (fuel : Nat) (deps : List Nat)
    (s : Sys) : Except LoadError Unit × Sys :=
  match fuel with
  | 0 => (.error .outOfFuel, s)
  | fuel + 1 =>
    match deps with
    | [] => (.ok (), s)
    | d :: rest =>
      match (if s.state d = ModuleLoadState.Prototype
             then construct beh g fuel d s else (.ok (), s)) with
      | (.error e, s1) => (.error e, s1)
      | (.ok _, s1) =>
        if s1.state d = ModuleLoadState.Constructed then
          match initializeMod beh g fuel d s1 with
          | (.error e, s2) => (.error e, s2)
          | (.ok _, s2) => initDeps beh g fuel rest s2
        else if s1.state d = ModuleLoadState.Failure then (.error .depFailed, s1)
        else initDeps beh g fuel rest s1

end

mutual

/-- ModuleBase.unload (ModuleBase.new.ts lines 278-329).  Requires state
Initialized or Constructed.  With `unloadDependents` set it calls
`dependent.unload("dependent_")` on every dependent — in the source this
call is NOT awaited and its reason argument is the string literal
`"dependent_"` (the receiver's own `reason` is not appended); the
embedding runs each dependent's unload to completion, which is the
reading most favourable to the specification, and discards its outcome
(an un-awaited rejection is invisible to the caller).  Then the
pending-unload flag is set and the instance's `unload` hook is invoked
with the reason; a truthy result clears `_base` and moves to Unloaded,
a falsy result or a thrown error is swallowed (only an `error` event is
emitted) leaving the state as it was. -/
def unload (beh : ModuleBehavior) (g : ModuleGraph) (fuel : Nat) (i : Nat) (reason : String)
    (unloadDependents : Bool) (s : Sys) : Except LoadError Unit × Sys :=
  match fuel with
  | 0 => (.error .outOfFuel, s)
  | fuel + 1 =>
    if s.state i ≠ ModuleLoadState.Initialized ∧ s.state i ≠ ModuleLoadState.Constructed then
      (.error .notLoaded, s)
    else
      let s0 := if unloadDependents then unloadDeps beh g fuel (g.dependents i) s else s
      let sp : Sys := { s0 with pending := setF s0.pending i (some PendingState.unload) }
      if !sp.hasBase i then
        (.ok (), { sp with
          state := setF sp.state i ModuleLoadState.Unloaded,
          pending := setF (setF sp.pending i (some PendingState.unload)) i none })
      else
        let sh : Sys := { sp with trace := sp.trace ++ [Event.unloadHook i reason] }
        match beh.unloadResult i with
        | some true =>
          (.ok (), { sh with
            hasBase := setF sh.hasBase i false,
            state := setF sh.state i ModuleLoadState.Unloaded,
            pending := setF sh.pending i none })
        | some false => (.ok (), { sh with pending := setF sh.pending i none })
        | none => (.ok (), { sh with pending := setF sh.pending i none })

/-- The dependent loop of ModuleBase.unload (lines 286-294): each
dependent's `unload` is started with the literal reason `"dependent_"`
and its default `unloadDependents = true`; results and errors are
unobservable to the caller (the call is not awaited). -/
def unloadDeps (beh : ModuleBehavior) (g : ModuleGraph) (fuel : Nat) (deps : List Nat)
    (s : Sys) : Sys :=
  match fuel with
  | 0 => s
  | fuel + 1 =>
    match deps with
    | [] => s
    | d :: rest =>
      unloadDeps beh g fuel rest (unload beh g fuel d "dependent_" true s).2

end

/-- ModuleLoader.constructAll (ModuleLoader.new.ts lines 366-398):
iterates over all keepers, skipping those not in Prototype, and
constructs each; the first construction error aborts the bulk run
(rethrown wrapped). -/
def constructAll (beh : ModuleBehavior) (g : ModuleGraph) (fuel : Nat) (order : List Nat)
    (s : Sys) : Except LoadError Unit × Sys :=
  match order with
  | [] => (.ok (), s)
  | i :: rest =>
    if s.state i ≠ ModuleLoadState.Prototype then constructAll beh g fuel rest s
    else
      match construct beh g fuel i s with
      | (.error e, s1) => (.error e, s1)
      | (.ok _, s1) => constructAll beh g fuel rest s1

/-- ModuleLoader.initAll (lines 404-436): iterates over all keepers,
skipping those not in Constructed, and initializes each; the first
error aborts the bulk run. -/
def initAll (beh : ModuleBehavior) (g : ModuleGraph) (fuel : Nat) (order : List Nat)
    (s : Sys) : Except LoadError Unit × Sys :=
  match order with
  | [] => (.ok (), s)
  | i :: rest =>
    if s.state i ≠ ModuleLoadState.Constructed then initAll beh g fuel rest s
    else
      match initializeMod beh g fuel i s with
      | (.error e, s1) => (.error e, s1)
      | (.ok _, s1) => initAll beh g fuel rest s1

/-- The state of a freshly linked graph of Prototype records: no
instance loaded, lockers empty, no pending flags, empty trace. -/
def freshSys : Sys where
  state := fun _ => ModuleLoadState.Prototype
  hasBase := fun _ => false
  constructionLocker := fun _ => false
  initLocker := fun _ => false
  pending := fun _ => none
  trace := []

/-- ModuleBase.getPendingState (lines 351-353). -/
def getPendingState (s : Sys) (i : Nat) : Option PendingState := s.pending i

/-- ModulePrivateInterface.isPendingInitialization
(PrivateInterface.ts lines 689-691). -/
def isPendingInitialization (s : Sys) (i : Nat) : Bool :=
  getPendingState s i = some PendingState.initialization

/-! Model of the external `semver` library at its boundary (versions
without prerelease tags; exact, caret and at-least range syntax). -/

/-- A parsed semantic version `major.minor.patch`. -/
structure Version where
  major : Nat
  minor : Nat
  patch : Nat
deriving DecidableEq, Repr

/-- Strict semantic-version precedence: lexicographic on
(major, minor, patch). -/
def Version.lt (v w : Version) : Prop :=
  v.major < w.major ∨
    (v.major = w.major ∧
      (v.minor < w.minor ∨ (v.minor = w.minor ∧ v.patch < w.patch)))

instance (v w : Version) : Decidable (Version.lt v w) := by
  unfold Version.lt; infer_instance

/-- Non-strict semantic-version precedence. -/
def Version.le (v w : Version) : Prop := Version.lt v w ∨ v = w

instance (v w : Version) : Decidable (Version.le v w) := by
  unfold Version.le; infer_instance

/-- Parses a strict `major.minor.patch` version string. -/
def parseVersion (str : String) : Option Version :=
  match (Str.splitOnChar '.' str).map Str.toNat with
  | [some a, some b, some c] => some ⟨a, b, c⟩
  | _ => none

/-- Caret-range satisfaction as in npm semver: `^a.b.c` admits versions
at least `a.b.c` without changing the left-most non-zero component. -/
def caretSat (base v : Version) : Prop :=
  if 0 < base.major then v.major = base.major ∧ Version.le base v
  else if 0 < base.minor then
    v.major = 0 ∧ v.minor = base.minor ∧ Version.le base v
  else v = base

instance (base v : Version) : Decidable (caretSat base v) := by
  unfold caretSat; infer_instance

/-- The range syntax this model covers. -/
inductive RangeExpr
  | exact (v : Version)
  | caret (v : Version)
  | atLeast (v : Version)
deriving DecidableEq, Repr

/-- Satisfaction of a parsed range. -/
def RangeExpr.test (r : RangeExpr) (v : Version) : Prop :=
  match r with
  | .exact w => v = w
  | .caret w => caretSat w v
  | .atLeast w => Version.le w v

instance (r : RangeExpr) (v : Version) : Decidable (r.test v) := by
  unfold RangeExpr.test; cases r <;> infer_instance

/-- Parses a range string (`1.2.3`, `^1.2.3` or `>=1.2.3`). -/
def parseRange (str : String) : Option RangeExpr :=
  if Str.startsWith str "^" then (parseVersion (Str.drop str 1)).map RangeExpr.caret
  else if Str.startsWith str ">=" then (parseVersion (Str.drop str 2)).map RangeExpr.atLeast
  else (parseVersion str).map RangeExpr.exact

/-- `semver.satisfies`: a version satisfies a range string; an
unparseable range satisfies nothing (the library reports no match). -/
def satisfies (v : Version) (range : String) : Bool :=
  match parseRange range with
  | none => false
  | some r => decide (r.test v)

/-- `semver.maxSatisfying`: the highest version in the list satisfying
the range, or `none` when no version does. -/
def maxSatisfying (versions : List Version) (range : String) : Option Version :=
  match versions with
  | [] => none
  | v :: rest =>
    if satisfies v range then
      match maxSatisfying rest range with
      | none => some v
      | some b => if Version.lt b v then some v else some b
    else maxSatisfying rest range

/-! The descriptor data model and the dependency linker
(ModuleLoader.new.ts `_linkAll`, lines 290-360). -/

/-- A validated module descriptor (IModuleInfo after discovery): the
version has passed `semver.valid`, the dependency map is a list of
(name, raw range string) pairs where an optional range carries a
trailing `?`. -/
structure ModInfo where
  name : String
  version : Version
  main : String
  dependencies : List (String × String)
deriving DecidableEq, Repr

/-- The registry `_infos`: module name to the list of registered
descriptors of that name (JavaScript object keys are unique; the first
binding wins on lookup). -/
abbrev Registry := List (String × List ModInfo)

/-- Lookup `this._infos[depName]`. -/
def lookupReg (reg : Registry) (name : String) : Option (List ModInfo) :=
  match reg with
  | [] => none
  | (n, infos) :: rest => if n = name then some infos else lookupReg rest name

/-- Errors thrown by `_linkAll`: a missing dependency name, an
unsatisfiable version requirement (the thrown message interpolates the
dependent's name, the dependency name, the range and the available
versions, which the model records as fields), and the defensive
invalid-state throw. -/
inductive LinkError
  | depNotFound (depName : String)
  | unsatisfied (modName : String) (depName : String) (range : String)
      (available : List Version)
  | invalidState
deriving DecidableEq, Repr

/-- The dependency name interpolated into a link error message. -/
def errDepName : LinkError → String
  | .depNotFound d => d
  | .unsatisfied _ d _ _ => d
  | .invalidState => ""

/-- A dependency edge wired by `modKeeper.addDependency(depKeeper)`:
the requesting descriptor, the dependency name and the range it
declared (with the optional `?` stripped), and the resolved
dependency's descriptor. -/
structure LinkEdge where
  requester : ModInfo
  depName : String
  range : String
  dep : ModInfo
deriving DecidableEq, Repr

/-- `depVerMap[version]` after the left-to-right building loop: the
last registered descriptor carrying that version (later assignments
overwrite earlier ones). -/
def lastWithVersion (infos : List ModInfo) (v : Version) : Option ModInfo :=
  match infos with
  | [] => none
  | info :: rest =>
    match lastWithVersion rest v with
    | some r => some r
    | none => if info.version = v then some info else none

/-- Whether a raw dependency entry is optional:
`const optional = verRange.endsWith("?")` (line 307). -/
def rangeOptional (rawRange : String) : Bool := Str.endsWith rawRange "?"

/-- The version range with the optional marker stripped:
`if (optional) verRange = verRange.slice(0, -1)` (line 308). -/
def rangeStripped (rawRange : String) : String :=
  if rangeOptional rawRange then Str.dropRight rawRange 1 else rawRange

/-- One iteration of the inner dependency loop of `_linkAll`
(lines 304-355): strip the optional marker, look the dependency up in
the registry, select the maximum satisfying version, and produce the
edge; a missing or unsatisfiable optional dependency is skipped with a
log (`.ok none`), a required one aborts the link phase. -/
def linkDepEntry (reg : Registry) (modInfo : ModInfo) (depName rawRange : String) :
    Except LinkError (Option LinkEdge) :=
  match lookupReg reg depName with
  | none =>
    if !rangeOptional rawRange then .error (.depNotFound depName) else .ok none
  | some depInfos =>
    match maxSatisfying (depInfos.map fun info => info.version) (rangeStripped rawRange) with
    | none =>
      if !rangeOptional rawRange then
        .error (.unsatisfied modInfo.name depName (rangeStripped rawRange)
          (depInfos.map fun info => info.version))
      else .ok none
    | some v =>
      match lastWithVersion depInfos v with
      | none => .error .invalidState
      | some depKeeper =>
        .ok (some { requester := modInfo, depName := depName,
                    range := rangeStripped rawRange, dep := depKeeper })

/-- The dependency loop of `_linkAll` for one keeper. -/
def linkDeps (reg : Registry) (modInfo : ModInfo) (deps : List (String × String)) :
    Except LinkError (List LinkEdge) :=
  match deps with
  | [] => .ok []
  | (dn, r) :: rest =>
    match linkDepEntry reg modInfo dn r with
    | .error e => .error e
    | .ok none => linkDeps reg modInfo rest
    | .ok (some edge) =>
      match linkDeps reg modInfo rest with
      | .error e => .error e
      | .ok edges => .ok (edge :: edges)

/-- The keeper loop of `_linkAll` for the keepers of one name. -/
def linkInfos (reg : Registry) (infos : List ModInfo) :
    Except LinkError (List LinkEdge) :=
  match infos with
  | [] => .ok []
  | info :: rest =>
    match linkDeps reg info info.dependencies with
    | .error e => .error e
    | .ok edges1 =>
      match linkInfos reg rest with
      | .error e => .error e
      | .ok edges2 => .ok (edges1 ++ edges2)

/-- The outer name loop of `_linkAll` over the registry entries. -/
def linkAllGo (reg : Registry) (entries : List (String × List ModInfo)) :
    Except LinkError (List LinkEdge) :=
  match entries with
  | [] => .ok []
  | (_, infos) :: rest =>
    match linkInfos reg infos with
    | .error e => .error e
    | .ok edges1 =>
      match linkAllGo reg rest with
      | .error e => .error e
      | .ok edges2 => .ok (edges1 ++ edges2)

/-- `ModuleLoader._linkAll` (lines 290-360): every registered keeper's
dependency map is resolved against the registry; the edges wired by
`addDependency` are returned.  (`_getKeepers` cannot miss because
`_prototypeAll` created a keeper per registered descriptor; the model
identifies keepers with their descriptors.) -/
def linkAll (reg : Registry) : Except LinkError (List LinkEdge) :=
  linkAllGo reg reg

/-! Descriptor discovery (Discovery/ModuleDiscoveryUtils.ts and
Discovery/ModuleDiscovery.ts). -/

/-- POSIX `path.isAbsolute`. -/
def isAbsolutePath (p : String) : Bool := Str.startsWith p "/"

/-- Path segments of a POSIX path, dropping empty and `.` segments. -/
def pathSegments (p : String) : List String :=
  (Str.splitOnChar '/' p).filter (fun seg => seg ≠ "" ∧ seg ≠ ".")

/-- Resolution of `..` segments against an absolute base (a `..` at the
root is dropped, as POSIX normalization does). -/
def resolveDots (segs : List String) : List String :=
  segs.foldl (fun acc seg => if seg = ".." then acc.dropLast else acc ++ [seg]) []

/-- Node `path.join(origin, fileName)` for an absolute `origin` (the
only way discovery calls it: the modules root is made absolute at
loader start-up). -/
def pathJoin (origin fileName : String) : String :=
  "/" ++ Str.intercalateChar '/' (resolveDots (pathSegments (origin ++ "/" ++ fileName)))

/-- `normalizeFileName` (ModuleDiscoveryUtils.ts lines 71-79): an
absolute manifest path is taken as-is, a relative one is joined onto
the declaring directory. -/
def normalizeFileName (fileName origin : String) : String :=
  if isAbsolutePath fileName then fileName else pathJoin origin fileName

/-- `pathPrecaution` (ModuleDiscoveryUtils.ts lines 87-91): rejects a
path that does not start with its origin or equals it.  In the source
this is an `async` function: when called without `await` its rejection
is never observed by the caller. -/
def pathPrecaution (p origin : String) : Except String Unit :=
  if ¬ Str.startsWith p origin ∨ p = origin then
    .error ("Incorrect path: \x22" ++ p ++ "\x22")
  else .ok ()

/-- The raw `mod.yml` manifest as parsed from YAML, before validation. -/
structure ModManifest where
  name : String
  version : String
  main : String
  dependencies : List (String × String)
deriving DecidableEq, Repr

/-- `semver.valid`: the parsed (normalized) version or nothing. -/
def semverValid (str : String) : Option Version := parseVersion str

/-- `moduleInDirectory` (Discovery/ModuleDiscovery.ts lines 88-116).
The argument `manifest` is the parsed `mod.yml` (or `none` when the
file is missing or unreadable).  The source entry-path check is
`discoveryUtils.pathPrecaution(normalizedPath, directory);` — an async
call made WITHOUT `await`, so its rejection never reaches the enclosing
try/catch; the model therefore discards the check's result exactly as
the source does.  An invalid version throws inside the try and yields
`none`. -/
def moduleInDirectory (directory : String) (manifest : Option ModManifest) :
    Option ModInfo :=
  match manifest with
  | none => none
  | some m =>
    let normalizedPath := normalizeFileName m.main directory
    let _precaution := pathPrecaution normalizedPath directory
    match semverValid m.version with
    | none => none
    | some v =>
      some { name := m.name, version := v, main := normalizedPath,
             dependencies := m.dependencies }

/-- No registered version of `dn` satisfies `range`: the name is not in
the registry at all, or `semver.maxSatisfying` returns null on the
registered versions. -/
def noSatisfyingVersion (reg : Registry) (dn range : String) : Bool :=
  match lookupReg reg dn with
  | none => true
  | some infos => (maxSatisfying (infos.map fun info => info.version) range).isNone

/-- A@1.2.0, no dependencies. -/
def infoA : ModInfo :=
  { name := "A", version := ⟨1, 2, 0⟩, main := "/modules/A/index.js", dependencies := [] }

/-- B@0.1.0 requiring A with range ^1.0.0. -/
def infoB : ModInfo :=
  { name := "B", version := ⟨0, 1, 0⟩, main := "/modules/B/index.js",
    dependencies := [("A", "^1.0.0")] }

/-- B@0.1.0 requiring A with range ^2.0.0 (unsatisfiable). -/
def infoB2 : ModInfo :=
  { name := "B", version := ⟨0, 1, 0⟩, main := "/modules/B/index.js",
    dependencies := [("A", "^2.0.0")] }

/-- Scenario 1 registry: A@1.2.0 registered, B requires A ^1.0.0. -/
def regScenario1 : Registry := [("A", [infoA]), ("B", [infoB])]

/-- The edge scenario 1 links. -/
def edgeBA : LinkEdge := { requester := infoB, depName := "A", range := "^1.0.0", dep := infoA }

/-- Scenario 2 registry: only A@1.2.0 registered, B requires A ^2.0.0. -/
def regScenario2 : Registry := [("A", [infoA]), ("B", [infoB2])]

/-- The mod.yml manifest of the C5 failing input: its `main` is an
absolute path outside the declaring directory. -/
def manifestEvil : ModManifest :=
  { name := "mod-a", version := "1.0.0", main := "/evil/payload.js", dependencies := [] }

/-- States reachable in a fresh constructAll/initAll run (the source
never assigns `Initializing`, and `Unloaded` only arises from unload). -/
def okState (st : ModuleLoadState) : Prop :=
  st = ModuleLoadState.Prototype ∨ st = ModuleLoadState.Constructed ∨
    st = ModuleLoadState.Initialized ∨ st = ModuleLoadState.Failure

/-- The record has completed construction (possibly also
initialization). -/
def conInit (st : ModuleLoadState) : Prop :=
  st = ModuleLoadState.Constructed ∨ st = ModuleLoadState.Initialized

/-- The forward motion a record's state can take during the
construct/initialize phases. -/
def advance (a b : ModuleLoadState) : Prop :=
  a = b ∨
    (a = ModuleLoadState.Prototype ∧
      (b = ModuleLoadState.Constructed ∨ b = ModuleLoadState.Initialized ∨
        b = ModuleLoadState.Failure)) ∨
    (a = ModuleLoadState.Constructed ∧ b = ModuleLoadState.Initialized)

/-- Pointwise forward motion of the whole system. -/
def advanceAll (s s2 : Sys) : Prop := ∀ j, advance (s.state j) (s2.state j)

/-- The trace is only appended to. -/
def traceExtends (s s2 : Sys) : Prop := ∃ u, s2.trace = s.trace ++ u

/-- Dependency-first trace property: in every prefix of the trace, a
record's constructed (resp. initialized) event is preceded by the
constructed (resp. initialized) events of all its dependencies. -/
def depFirst (g : ModuleGraph) (t : List Event) : Prop :=
  ∀ k a b, b ∈ g.dependencies a →
    (Event.constructed a ∈ t.take k → Event.constructed b ∈ t.take k) ∧
    (Event.initialized a ∈ t.take k → Event.initialized b ∈ t.take k)

/-- Run invariant: the states stay in the reachable set, a
constructed/initialized state is witnessed by its trace event, and the
trace is dependency-first. -/
def Inv (g : ModuleGraph) (s : Sys) : Prop :=
  (∀ i, okState (s.state i)) ∧
  (∀ i, conInit (s.state i) → Event.constructed i ∈ s.trace) ∧
  (∀ i, s.state i = ModuleLoadState.Initialized → Event.initialized i ∈ s.trace) ∧
  depFirst g s.trace

/-- What every embedded lifecycle call guarantees about the state pair. -/
def StepOk (g : ModuleGraph) (s s2 : Sys) : Prop :=
  Inv g s2 ∧ traceExtends s s2 ∧ advanceAll s s2

/-- Hook behaviour where every construct/init/unload hook succeeds. -/
def behAll : ModuleBehavior :=
  { constructOk := fun _ => true, initOk := fun _ => true, unloadResult := fun _ => some true }

/-- Two records: 0 depends on 1 (so 1 has dependent 0). -/
def gAB : ModuleGraph :=
  { dependencies := fun i => if i = 0 then [1] else [],
    dependents := fun i => if i = 1 then [0] else [] }

/-- A graph with no edges. -/
def gNone : ModuleGraph := { dependencies := fun _ => [], dependents := fun _ => [] }

/-- Hook behaviour where the init hook throws. -/
def behInitThrows : ModuleBehavior :=
  { constructOk := fun _ => true, initOk := fun _ => false, unloadResult := fun _ => some true }

/-- Every record Initialized with a loaded instance. -/
def sysBothInitialized : Sys :=
  { freshSys with state := fun _ => ModuleLoadState.Initialized, hasBase := fun _ => true }

/-- Every record Constructed with a loaded instance. -/
def sysBothConstructed : Sys :=
  { freshSys with state := fun _ => ModuleLoadState.Constructed, hasBase := fun _ => true }

/-- Record 0 Initialized with a loaded instance, the rest fresh. -/
def sysZeroInitialized : Sys :=
  { freshSys with
    state := fun i => if i = 0 then ModuleLoadState.Initialized else ModuleLoadState.Prototype,
    hasBase := fun i => i == 0 }

/-! Lemmas about the semantic-version model. -/

theorem Version.le_refl (v : Version) : Version.le v v := Or.inr rfl

theorem Version.le_of_not_lt {v w : Version} (h : ¬ Version.lt v w) : Version.le w v := by
  obtain ⟨a, b, c⟩ := v
  obtain ⟨d, e, f⟩ := w
  simp only [Version.lt, Version.le, Version.mk.injEq] at *
  omega

theorem Version.le_of_le_of_lt {u v w : Version} (h1 : Version.le u v)
    (h2 : Version.lt v w) : Version.le u w := by
  obtain ⟨a, b, c⟩ := u
  obtain ⟨d, e, f⟩ := v
  obtain ⟨p, q, r⟩ := w
  simp only [Version.lt, Version.le, Version.mk.injEq] at *
  omega

theorem maxSatisfying_none {versions : List Version} {range : String}
    (h : maxSatisfying versions range = none) :
    ∀ v ∈ versions, satisfies v range = false := by
  induction versions with
  | nil => simp
  | cons w rest ih =>
    intro u hu
    simp only [maxSatisfying] at h
    by_cases hs : satisfies w range = true
    · rw [if_pos hs] at h
      cases hm : maxSatisfying rest range <;> rw [hm] at h
      · simp at h
      · dsimp only at h
        split at h <;> simp at h
    · rw [if_neg hs] at h
      rcases List.mem_cons.mp hu with hw | hr
      · subst hw
        simpa using hs
      · exact ih h u hr

theorem maxSatisfying_spec {versions : List Version} {range : String} {v : Version}
    (h : maxSatisfying versions range = some v) :
    v ∈ versions ∧ satisfies v range = true ∧
      ∀ u ∈ versions, satisfies u range = true → Version.le u v := by
  induction versions generalizing v with
  | nil => simp [maxSatisfying] at h
  | cons w rest ih =>
    simp only [maxSatisfying] at h
    by_cases hs : satisfies w range = true
    · rw [if_pos hs] at h
      cases hm : maxSatisfying rest range with
      | none =>
        rw [hm] at h
        dsimp only at h
        have hv : w = v := by simpa using h
        subst hv
        refine ⟨List.mem_cons_self _ _, hs, ?_⟩
        intro u hu hsu
        rcases List.mem_cons.mp hu with rfl | hr
        · exact Version.le_refl _
        · exact absurd hsu (by simp [maxSatisfying_none hm u hr])
      | some b =>
        rw [hm] at h
        dsimp only at h
        obtain ⟨hbmem, hbsat, hbmax⟩ := ih hm
        by_cases hlt : Version.lt b w
        · rw [if_pos hlt] at h
          have hv : w = v := by simpa using h
          subst hv
          refine ⟨List.mem_cons_self _ _, hs, ?_⟩
          intro u hu hsu
          rcases List.mem_cons.mp hu with rfl | hr
          · exact Version.le_refl _
          · exact Version.le_of_le_of_lt (hbmax u hr hsu) hlt
        · rw [if_neg hlt] at h
          have hv : b = v := by simpa using h
          subst hv
          refine ⟨List.mem_cons_of_mem _ hbmem, hbsat, ?_⟩
          intro u hu hsu
          rcases List.mem_cons.mp hu with rfl | hr
          · exact Version.le_of_not_lt hlt
          · exact hbmax u hr hsu
    · rw [if_neg hs] at h
      obtain ⟨hmem, hsat, hmax⟩ := ih h
      refine ⟨List.mem_cons_of_mem _ hmem, hsat, ?_⟩
      intro u hu hsu
      rcases List.mem_cons.mp hu with rfl | hr
      · exact absurd hsu hs
      · exact hmax u hr hsu

theorem lastWithVersion_spec {infos : List ModInfo} {v : Version} {d : ModInfo}
    (h : lastWithVersion infos v = some d) : d ∈ infos ∧ d.version = v := by
  induction infos generalizing d with
  | nil => simp [lastWithVersion] at h
  | cons i rest ih =>
    simp only [lastWithVersion] at h
    cases hm : lastWithVersion rest v with
    | some r =>
      rw [hm] at h
      dsimp only at h
      have hr : r = d := by simpa using h
      subst hr
      obtain ⟨hmem, hv⟩ := ih hm
      exact ⟨List.mem_cons_of_mem _ hmem, hv⟩
    | none =>
      rw [hm] at h
      dsimp only at h
      by_cases hc : i.version = v
      · rw [if_pos hc] at h
        have hi : i = d := by simpa using h
        subst hi
        exact ⟨List.mem_cons_self _ _, hc⟩
      · rw [if_neg hc] at h
        simp at h

/-! Lemmas about the linker. -/

theorem linkDepEntry_ok_some {reg : Registry} {mi : ModInfo} {dn raw : String} {e : LinkEdge}
    (h : linkDepEntry reg mi dn raw = .ok (some e)) :
    e.requester = mi ∧ e.depName = dn ∧
      ∃ infos, lookupReg reg dn = some infos ∧ e.dep ∈ infos ∧
        satisfies e.dep.version e.range = true ∧
        ∀ d ∈ infos, satisfies d.version e.range = true →
          Version.le d.version e.dep.version := by
  simp only [linkDepEntry] at h
  cases hlk : lookupReg reg dn with
  | none =>
    rw [hlk] at h
    dsimp only at h
    split at h <;> simp at h
  | some depInfos =>
    rw [hlk] at h
    dsimp only at h
    cases hms : maxSatisfying (depInfos.map fun info => info.version)
        (rangeStripped raw) with
    | none =>
      rw [hms] at h
      dsimp only at h
      split at h <;> simp at h
    | some v =>
      rw [hms] at h
      dsimp only at h
      cases hlw : lastWithVersion depInfos v with
      | none => rw [hlw] at h; simp at h
      | some depKeeper =>
        rw [hlw] at h
        dsimp only at h
        have he : e = { requester := mi, depName := dn,
                        range := rangeStripped raw, dep := depKeeper } := by
          have hh := h
          simp only [Except.ok.injEq, Option.some.injEq] at hh
          exact hh.symm
        subst he
        obtain ⟨hdmem, hdv⟩ := lastWithVersion_spec hlw
        obtain ⟨_, hsat, hmax⟩ := maxSatisfying_spec hms
        refine ⟨rfl, rfl, depInfos, rfl, hdmem, ?_, ?_⟩
        · simpa [hdv] using hsat
        · intro d hd hds
          have hdm : d.version ∈ depInfos.map fun info => info.version :=
            List.mem_map_of_mem _ hd
          simpa [hdv] using hmax d.version hdm hds

theorem linkDeps_mem {reg : Registry} {mi : ModInfo} {deps : List (String × String)}
    {es : List LinkEdge} {e : LinkEdge}
    (h : linkDeps reg mi deps = .ok es) (he : e ∈ es) :
    ∃ dn r, (dn, r) ∈ deps ∧ linkDepEntry reg mi dn r = .ok (some e) := by
  induction deps generalizing es with
  | nil =>
    simp only [linkDeps] at h
    obtain rfl : ([] : List LinkEdge) = es := by simpa using h
    simp at he
  | cons p rest ih =>
    obtain ⟨dn, r⟩ := p
    simp only [linkDeps] at h
    cases hent : linkDepEntry reg mi dn r with
    | error err => rw [hent] at h; simp at h
    | ok o =>
      rw [hent] at h
      cases o with
      | none =>
        dsimp only at h
        obtain ⟨dn2, r2, hmem, heq⟩ := ih h he
        exact ⟨dn2, r2, List.mem_cons_of_mem _ hmem, heq⟩
      | some edge =>
        dsimp only at h
        cases hrest : linkDeps reg mi rest with
        | error err => rw [hrest] at h; simp at h
        | ok es2 =>
          rw [hrest] at h
          dsimp only at h
          have hes : edge :: es2 = es := by simpa using h
          subst hes
          rcases List.mem_cons.mp he with rfl | hr
          · exact ⟨dn, r, List.mem_cons_self _ _, hent⟩
          · obtain ⟨dn2, r2, hmem, heq⟩ := ih hrest hr
            exact ⟨dn2, r2, List.mem_cons_of_mem _ hmem, heq⟩

theorem linkInfos_mem {reg : Registry} {infos : List ModInfo}
    {es : List LinkEdge} {e : LinkEdge}
    (h : linkInfos reg infos = .ok es) (he : e ∈ es) :
    ∃ mi ∈ infos, ∃ dn r, (dn, r) ∈ mi.dependencies ∧
      linkDepEntry reg mi dn r = .ok (some e) := by
  induction infos generalizing es with
  | nil =>
    simp only [linkInfos] at h
    obtain rfl : ([] : List LinkEdge) = es := by simpa using h
    simp at he
  | cons mi rest ih =>
    simp only [linkInfos] at h
    cases hdeps : linkDeps reg mi mi.dependencies with
    | error err => rw [hdeps] at h; simp at h
    | ok es1 =>
      rw [hdeps] at h
      dsimp only at h
      cases hrest : linkInfos reg rest with
      | error err => rw [hrest] at h; simp at h
      | ok es2 =>
        rw [hrest] at h
        dsimp only at h
        have hes : es1 ++ es2 = es := by simpa using h
        subst hes
        rcases List.mem_append.mp he with h1 | h2
        · obtain ⟨dn, r, hmem, heq⟩ := linkDeps_mem hdeps h1
          exact ⟨mi, List.mem_cons_self _ _, dn, r, hmem, heq⟩
        · obtain ⟨mi2, hmi2, dn, r, hmem, heq⟩ := ih hrest h2
          exact ⟨mi2, List.mem_cons_of_mem _ hmi2, dn, r, hmem, heq⟩

theorem linkAllGo_mem {reg : Registry} {entries : List (String × List ModInfo)}
    {es : List LinkEdge} {e : LinkEdge}
    (h : linkAllGo reg entries = .ok es) (he : e ∈ es) :
    ∃ nm infos, (nm, infos) ∈ entries ∧ ∃ mi ∈ infos, ∃ dn r,
      (dn, r) ∈ mi.dependencies ∧ linkDepEntry reg mi dn r = .ok (some e) := by
  induction entries generalizing es with
  | nil =>
    simp only [linkAllGo] at h
    obtain rfl : ([] : List LinkEdge) = es := by simpa using h
    simp at he
  | cons p rest ih =>
    obtain ⟨nm, infos⟩ := p
    simp only [linkAllGo] at h
    cases hinfos : linkInfos reg infos with
    | error err => rw [hinfos] at h; simp at h
    | ok es1 =>
      rw [hinfos] at h
      dsimp only at h
      cases hrest : linkAllGo reg rest with
      | error err => rw [hrest] at h; simp at h
      | ok es2 =>
        rw [hrest] at h
        dsimp only at h
        have hes : es1 ++ es2 = es := by simpa using h
        subst hes
        rcases List.mem_append.mp he with h1 | h2
        · obtain ⟨mi, hmi, dn, r, hmem, heq⟩ := linkInfos_mem hinfos h1
          exact ⟨nm, infos, List.mem_cons_self _ _, mi, hmi, dn, r, hmem, heq⟩
        · obtain ⟨nm2, infos2, hp, rest2⟩ := ih hrest h2
          exact ⟨nm2, infos2, List.mem_cons_of_mem _ hp, rest2⟩

theorem linkDeps_ok_entries {reg : Registry} {mi : ModInfo} {deps : List (String × String)}
    {es : List LinkEdge} (h : linkDeps reg mi deps = .ok es) :
    ∀ dn r, (dn, r) ∈ deps → ∃ o, linkDepEntry reg mi dn r = .ok o := by
  induction deps generalizing es with
  | nil => intro dn r hmem; simp at hmem
  | cons p rest ih =>
    obtain ⟨dn0, r0⟩ := p
    intro dn r hmem
    simp only [linkDeps] at h
    cases hent : linkDepEntry reg mi dn0 r0 with
    | error err => rw [hent] at h; simp at h
    | ok o =>
      rw [hent] at h
      rcases List.mem_cons.mp hmem with hp | hr
      · cases hp
        exact ⟨o, hent⟩
      · cases o with
        | none =>
          dsimp only at h
          exact ih h dn r hr
        | some edge =>
          dsimp only at h
          cases hrest : linkDeps reg mi rest with
          | error err => rw [hrest] at h; simp at h
          | ok es2 => exact ih hrest dn r hr

theorem linkInfos_ok_entries {reg : Registry} {infos : List ModInfo}
    {es : List LinkEdge} (h : linkInfos reg infos = .ok es) :
    ∀ mi ∈ infos, ∃ es1, linkDeps reg mi mi.dependencies = .ok es1 := by
  induction infos generalizing es with
  | nil => intro mi hmem; simp at hmem
  | cons mi0 rest ih =>
    intro mi hmem
    simp only [linkInfos] at h
    cases hdeps : linkDeps reg mi0 mi0.dependencies with
    | error err => rw [hdeps] at h; simp at h
    | ok es1 =>
      rw [hdeps] at h
      dsimp only at h
      rcases List.mem_cons.mp hmem with rfl | hr
      · exact ⟨es1, hdeps⟩
      · cases hrest : linkInfos reg rest with
        | error err => rw [hrest] at h; simp at h
        | ok es2 => exact ih hrest mi hr

theorem linkAllGo_ok_entries {reg : Registry} {entries : List (String × List ModInfo)}
    {es : List LinkEdge} (h : linkAllGo reg entries = .ok es) :
    ∀ nm infos, (nm, infos) ∈ entries → ∃ es1, linkInfos reg infos = .ok es1 := by
  induction entries generalizing es with
  | nil => intro nm infos hmem; simp at hmem
  | cons p rest ih =>
    obtain ⟨nm0, infos0⟩ := p
    intro nm infos hmem
    simp only [linkAllGo] at h
    cases hinfos : linkInfos reg infos0 with
    | error err => rw [hinfos] at h; simp at h
    | ok es1 =>
      rw [hinfos] at h
      dsimp only at h
      rcases List.mem_cons.mp hmem with hp | hr
      · cases hp
        exact ⟨es1, hinfos⟩
      · cases hrest : linkAllGo reg rest with
        | error err => rw [hrest] at h; simp at h
        | ok es2 => exact ih hrest nm infos hr

/-! Concrete fixtures used by the witnesses. -/

/-- C6: every dependency edge created by the linker connects the
requester to a record registered under the dependency name whose
version satisfies the declared (stripped) range, and that version is
the maximum among all registered versions of that name that satisfy the
range. -/
theorem c6_linker_selects_max_satisfying {reg : Registry} {edges : List LinkEdge}
    {e : LinkEdge} (h : linkAll reg = .ok edges) (he : e ∈ edges) :
    satisfies e.dep.version e.range = true ∧
      ∃ infos, lookupReg reg e.depName = some infos ∧ e.dep ∈ infos ∧
        ∀ d ∈ infos, satisfies d.version e.range = true →
          Version.le d.version e.dep.version := by
  simp only [linkAll] at h
  obtain ⟨nm, infos, hentry, mi, hmi, dn, r, hdep, hent⟩ := linkAllGo_mem h he
  obtain ⟨hreq, hdn, infos2, hlk, hdmem, hsat, hmax⟩ := linkDepEntry_ok_some hent
  subst hdn
  exact ⟨hsat, infos2, hlk, hdmem, hmax⟩

/-- C6 witness: in scenario 1 the linker produces exactly the edge
B → A@1.2.0 and the theorem applies to it. -/
theorem c6_linker_selects_max_satisfying_witness :
    satisfies edgeBA.dep.version edgeBA.range = true :=
  (@c6_linker_selects_max_satisfying regScenario1 [edgeBA] edgeBA
    (by decide) (by decide)).1

/-- C7: a dependency entry with no satisfying registered version is
skipped without an edge when optional, produces an error naming the
dependency when required, and any erroring entry of a registered
descriptor makes the whole link phase fail. -/
theorem c7_unsatisfied_dependency_handling (reg : Registry) (mi : ModInfo)
    (dn raw : String) :
    (rangeOptional raw = true → noSatisfyingVersion reg dn (rangeStripped raw) = true →
      linkDepEntry reg mi dn raw = .ok none) ∧
    (rangeOptional raw = false → noSatisfyingVersion reg dn (rangeStripped raw) = true →
      ∃ err, linkDepEntry reg mi dn raw = .error err ∧ errDepName err = dn) ∧
    (∀ nm infos err, (nm, infos) ∈ reg → mi ∈ infos → (dn, raw) ∈ mi.dependencies →
      linkDepEntry reg mi dn raw = .error err →
      ∃ err2, linkAll reg = .error err2) := by
  refine ⟨?_, ?_, ?_⟩
  · intro hopt hno
    simp only [noSatisfyingVersion] at hno
    simp only [linkDepEntry]
    cases hlk : lookupReg reg dn with
    | none => simp [hopt]
    | some infos =>
      rw [hlk] at hno
      have hms : maxSatisfying (infos.map fun info => info.version)
          (rangeStripped raw) = none := Option.isNone_iff_eq_none.mp hno
      simp [hms, hopt]
  · intro hopt hno
    simp only [noSatisfyingVersion] at hno
    simp only [linkDepEntry]
    cases hlk : lookupReg reg dn with
    | none => exact ⟨.depNotFound dn, by simp [hopt], rfl⟩
    | some infos =>
      rw [hlk] at hno
      have hms : maxSatisfying (infos.map fun info => info.version)
          (rangeStripped raw) = none := Option.isNone_iff_eq_none.mp hno
      exact ⟨.unsatisfied mi.name dn (rangeStripped raw)
        (infos.map fun info => info.version), by simp [hms, hopt], rfl⟩
  · intro nm infos err hreg hmi hdep hent
    cases hall : linkAll reg with
    | error err2 => exact ⟨err2, rfl⟩
    | ok es =>
      exfalso
      simp only [linkAll] at hall
      obtain ⟨es1, hinfos⟩ := linkAllGo_ok_entries hall nm infos hreg
      obtain ⟨es2, hdeps⟩ := linkInfos_ok_entries hinfos mi hmi
      obtain ⟨o, hok⟩ := linkDeps_ok_entries hdeps dn raw hdep
      rw [hent] at hok
      simp at hok

/-- C7 witness: applying the optional part in scenario 2 with the range
marked optional (`^2.0.0?` against registered A@1.2.0 only): the entry
is skipped with no edge. -/
theorem c7_unsatisfied_dependency_handling_witness :
    linkDepEntry regScenario2 infoB2 "A" "^2.0.0?" = .ok none :=
  (c7_unsatisfied_dependency_handling regScenario2 infoB2 "A" "^2.0.0?").1
    (by decide) (by decide)

/-- C5 (code bug): a manifest whose entry path escapes its declaring
directory is NOT rejected.  `pathPrecaution` is an async function and
`moduleInDirectory` calls it without `await`, so its rejection is never
observed: discovery still returns the descriptor whose `main` the
code's own containment check rejects, and nothing downstream re-checks
before `rebuildRegistry()` creates its Record. -/
theorem c5_escaping_entry_path_not_rejected :
    moduleInDirectory "/modules/mod_a" (some manifestEvil)
        = some { name := "mod-a", version := ⟨1, 0, 0⟩,
                 main := "/evil/payload.js", dependencies := [] } ∧
    (pathPrecaution "/evil/payload.js" "/modules/mod_a").isOk = false := by
  decide

/-! Dependency-first machinery for the bulk construction and
initialization runs (claim C2). -/

theorem advance_refl (a : ModuleLoadState) : advance a a := Or.inl rfl

theorem advance_trans {a b c : ModuleLoadState} (h1 : advance a b) (h2 : advance b c) :
    advance a c := by
  rcases h1 with rfl | ⟨rfl, hb⟩ | ⟨rfl, rfl⟩
  · exact h2
  · rcases h2 with rfl | ⟨hbp, hc⟩ | ⟨hbc, rfl⟩
    · exact Or.inr (Or.inl ⟨rfl, hb⟩)
    · rcases hb with rfl | rfl | rfl <;> simp at hbp
    · exact Or.inr (Or.inl ⟨rfl, Or.inr (Or.inl rfl)⟩)
  · rcases h2 with rfl | ⟨hbp, hc⟩ | ⟨hbc, rfl⟩
    · exact Or.inr (Or.inr ⟨rfl, rfl⟩)
    · simp at hbp
    · simp at hbc

theorem conInit_advance {a b : ModuleLoadState} (h : conInit a) (ha : advance a b) :
    conInit b := by
  rcases ha with rfl | ⟨rfl, hb⟩ | ⟨rfl, rfl⟩
  · exact h
  · rcases h with h | h <;> simp at h
  · exact Or.inr rfl

theorem initialized_advance {a b : ModuleLoadState}
    (h : a = ModuleLoadState.Initialized) (ha : advance a b) :
    b = ModuleLoadState.Initialized := by
  subst h
  rcases ha with rfl | ⟨hp, _⟩ | ⟨hc, rfl⟩
  · rfl
  · simp at hp
  · rfl

theorem advanceAll_refl (s : Sys) : advanceAll s s := fun _ => advance_refl _

theorem advanceAll_trans {s s1 s2 : Sys} (h1 : advanceAll s s1) (h2 : advanceAll s1 s2) :
    advanceAll s s2 := fun j => advance_trans (h1 j) (h2 j)

theorem traceExtends_refl (s : Sys) : traceExtends s s := ⟨[], by simp⟩

theorem traceExtends_trans {s s1 s2 : Sys} (h1 : traceExtends s s1)
    (h2 : traceExtends s1 s2) : traceExtends s s2 := by
  obtain ⟨u, hu⟩ := h1
  obtain ⟨v, hv⟩ := h2
  exact ⟨u ++ v, by rw [hv, hu, List.append_assoc]⟩

theorem traceExtends_mem {s s2 : Sys} {e : Event} (h : traceExtends s s2)
    (he : e ∈ s.trace) : e ∈ s2.trace := by
  obtain ⟨u, hu⟩ := h
  rw [hu]
  exact List.mem_append_left _ he

theorem stepOk_refl {g : ModuleGraph} {s : Sys} (hInv : Inv g s) : StepOk g s s :=
  ⟨hInv, traceExtends_refl s, advanceAll_refl s⟩

theorem stepOk_trans {g : ModuleGraph} {s s1 s2 : Sys} (h1 : StepOk g s s1)
    (h2 : StepOk g s1 s2) : StepOk g s s2 :=
  ⟨h2.1, traceExtends_trans h1.2.1 h2.2.1, advanceAll_trans h1.2.2 h2.2.2⟩

/-- Appending one event preserves the dependency-first trace property
when the appended event's dependencies already appear in the trace. -/
theorem depFirst_append {g : ModuleGraph} {t : List Event} {e : Event}
    (h : depFirst g t)
    (hc : ∀ a, e = Event.constructed a →
      ∀ b ∈ g.dependencies a, Event.constructed b ∈ t)
    (hi : ∀ a, e = Event.initialized a →
      ∀ b ∈ g.dependencies a, Event.initialized b ∈ t) :
    depFirst g (t ++ [e]) := by
  intro k a b hb
  by_cases hk : k ≤ t.length
  · rw [List.take_append_of_le_length hk]
    exact h k a b hb
  · have hlen : (t ++ [e]).length ≤ k := by
      simp only [List.length_append, List.length_cons, List.length_nil]
      omega
    rw [List.take_of_length_le hlen]
    constructor
    · intro hmem
      rcases List.mem_append.mp hmem with hmem | hmem
      · have := (h t.length a b hb).1 (by rwa [List.take_length])
        rw [List.take_length] at this
        exact List.mem_append_left _ this
      · have hea : e = Event.constructed a := by
          have := List.mem_singleton.mp hmem
          exact this.symm
        exact List.mem_append_left _ (hc a hea b hb)
    · intro hmem
      rcases List.mem_append.mp hmem with hmem | hmem
      · have := (h t.length a b hb).2 (by rwa [List.take_length])
        rw [List.take_length] at this
        exact List.mem_append_left _ this
      · have hea : e = Event.initialized a := by
          have := List.mem_singleton.mp hmem
          exact this.symm
        exact List.mem_append_left _ (hi a hea b hb)

/-- Joint induction on fuel: `construct` and its dependency loop keep
the run invariant, only extend the trace, only advance states, and on
success leave the module Constructed (resp. all listed dependencies
constructed). -/
theorem construct_bundle (beh : ModuleBehavior) (g : ModuleGraph) :
    ∀ fuel : Nat,
      (∀ i s, Inv g s →
        StepOk g s (construct beh g fuel i s).2 ∧
        ((construct beh g fuel i s).1 = .ok () →
          (construct beh g fuel i s).2.state i = ModuleLoadState.Constructed)) ∧
      (∀ l s, Inv g s →
        StepOk g s (constructDeps beh g fuel l s).2 ∧
        ((constructDeps beh g fuel l s).1 = .ok () →
          ∀ d ∈ l, conInit ((constructDeps beh g fuel l s).2.state d))) := by
  intro fuel
  induction fuel with
  | zero =>
    constructor
    · intro i s hInv
      simp only [construct]
      exact ⟨stepOk_refl hInv, by simp⟩
    · intro l s hInv
      simp only [constructDeps]
      exact ⟨stepOk_refl hInv, by simp⟩
  | succ fuel ih =>
    obtain ⟨ihC, ihD⟩ := ih
    constructor
    · intro i s hInv
      by_cases h1 : s.state i = ModuleLoadState.Prototype
      · by_cases h2 : s.constructionLocker i = true
        · have heq : construct beh g (fuel + 1) i s = (.error .alreadyConstructing, s) := by
            simp only [construct]
            rw [if_neg (by simp [h1]), if_pos h2]
          rw [heq]
          exact ⟨stepOk_refl hInv, by simp⟩
        · have hD := ihD (g.dependencies i) s hInv
          cases hdeps : constructDeps beh g fuel (g.dependencies i) s with
          | mk r1 s1 =>
          rw [hdeps] at hD
          cases r1 with
          | error e =>
            have heq : construct beh g (fuel + 1) i s = (.error e, s1) := by
              simp only [construct]
              rw [if_neg (by simp [h1]), if_neg h2, hdeps]
            rw [heq]
            exact ⟨hD.1, by simp⟩
          | ok u =>
            obtain ⟨⟨hOk1, hC1, hC2, hDf⟩, hTr, hAdv⟩ := hD.1
            have hpost : ∀ d ∈ g.dependencies i, conInit (s1.state d) := hD.2 rfl
            by_cases h3 : beh.constructOk i = true
            · have heq : construct beh g (fuel + 1) i s =
                  (.ok (), { s1 with
                    hasBase := setF s1.hasBase i true,
                    state := setF s1.state i ModuleLoadState.Constructed,
                    constructionLocker := setF s1.constructionLocker i false,
                    trace := s1.trace ++ [Event.constructed i] }) := by
                simp only [construct]
                rw [if_neg (by simp [h1]), if_neg h2, hdeps]
                dsimp only
                rw [if_pos h3]
              rw [heq]
              refine ⟨⟨⟨?_, ?_, ?_, ?_⟩, ?_, ?_⟩, ?_⟩
              · intro j
                dsimp only [setF]
                by_cases hj : j = i
                · simp [hj, okState]
                · simp only [if_neg hj]
                  exact hOk1 j
              · intro j hcj
                dsimp only [setF] at hcj ⊢
                by_cases hj : j = i
                · subst hj
                  simp
                · rw [if_neg hj] at hcj
                  exact List.mem_append_left _ (hC1 j hcj)
              · intro j hj2
                dsimp only [setF] at hj2 ⊢
                by_cases hj : j = i
                · rw [if_pos hj] at hj2
                  simp at hj2
                · rw [if_neg hj] at hj2
                  exact List.mem_append_left _ (hC2 j hj2)
              · dsimp only
                refine depFirst_append hDf ?_ ?_
                · intro a hea b hb
                  obtain rfl : i = a := by simpa using hea
                  exact hC1 b (hpost b hb)
                · intro a hea b hb
                  simp at hea
              · exact traceExtends_trans hTr ⟨[Event.constructed i], rfl⟩
              · intro j
                dsimp only [setF]
                by_cases hj : j = i
                · subst hj
                  rw [if_pos rfl, h1]
                  exact Or.inr (Or.inl ⟨rfl, Or.inl rfl⟩)
                · rw [if_neg hj]
                  exact hAdv j
              · intro _
                dsimp only [setF]
                rw [if_pos rfl]
            · have heq : construct beh g (fuel + 1) i s =
                  (.error .constructHookThrew,
                    { s1 with state := setF s1.state i ModuleLoadState.Failure }) := by
                simp only [construct]
                rw [if_neg (by simp [h1]), if_neg h2, hdeps]
                dsimp only
                rw [if_neg h3]
              rw [heq]
              refine ⟨⟨⟨?_, ?_, ?_, hDf⟩, hTr, ?_⟩, by simp⟩
              · intro j
                dsimp only [setF]
                by_cases hj : j = i
                · simp [hj, okState]
                · simp only [if_neg hj]
                  exact hOk1 j
              · intro j hcj
                dsimp only [setF] at hcj
                by_cases hj : j = i
                · rw [if_pos hj] at hcj
                  rcases hcj with h | h <;> simp at h
                · rw [if_neg hj] at hcj
                  exact hC1 j hcj
              · intro j hj2
                dsimp only [setF] at hj2
                by_cases hj : j = i
                · rw [if_pos hj] at hj2
                  simp at hj2
                · rw [if_neg hj] at hj2
                  exact hC2 j hj2
              · intro j
                dsimp only [setF]
                by_cases hj : j = i
                · subst hj
                  rw [if_pos rfl, h1]
                  exact Or.inr (Or.inl ⟨rfl, Or.inr (Or.inr rfl)⟩)
                · rw [if_neg hj]
                  exact hAdv j
      · have heq : construct beh g (fuel + 1) i s = (.error .notPrototype, s) := by
          simp only [construct]
          rw [if_pos h1]
        rw [heq]
        exact ⟨stepOk_refl hInv, by simp⟩
    · intro l s hInv
      cases l with
      | nil =>
        have heq : constructDeps beh g (fuel + 1) [] s = (.ok (), s) := by
          simp only [constructDeps]
        rw [heq]
        exact ⟨stepOk_refl hInv, by simp⟩
      | cons d rest =>
        by_cases hd1 : s.state d = ModuleLoadState.Prototype
        · have hC := ihC d s hInv
          cases hcon : construct beh g fuel d s with
          | mk r1 s1 =>
          rw [hcon] at hC
          cases r1 with
          | error e =>
            have heq : constructDeps beh g (fuel + 1) (d :: rest) s = (.error e, s1) := by
              simp only [constructDeps]
              rw [if_pos hd1, hcon]
            rw [heq]
            exact ⟨hC.1, by simp⟩
          | ok u =>
            have hInv1 : Inv g s1 := hC.1.1
            have hRest := ihD rest s1 hInv1
            have heq : constructDeps beh g (fuel + 1) (d :: rest) s =
                constructDeps beh g fuel rest s1 := by
              simp only [constructDeps]
              rw [if_pos hd1, hcon]
            rw [heq]
            refine ⟨stepOk_trans hC.1 hRest.1, ?_⟩
            intro hok d2 hd2
            rcases List.mem_cons.mp hd2 with rfl | hr
            · have hcd : conInit (s1.state d2) := by
                rw [hC.2 rfl]
                exact Or.inl rfl
              exact conInit_advance hcd (hRest.1.2.2 d2)
            · exact hRest.2 hok d2 hr
        · by_cases hd2 : s.state d = ModuleLoadState.Failure
          · have heq : constructDeps beh g (fuel + 1) (d :: rest) s
                = (.error .depFailed, s) := by
              simp only [constructDeps]
              rw [if_neg hd1, if_pos hd2]
            rw [heq]
            exact ⟨stepOk_refl hInv, by simp⟩
          · have hRest := ihD rest s hInv
            have heq : constructDeps beh g (fuel + 1) (d :: rest) s =
                constructDeps beh g fuel rest s := by
              simp only [constructDeps]
              rw [if_neg hd1, if_neg hd2]
            rw [heq]
            refine ⟨hRest.1, ?_⟩
            intro hok dx hdx
            rcases List.mem_cons.mp hdx with rfl | hr
            · have hcd : conInit (s.state dx) := by
                rcases hInv.1 dx with h | h | h | h
                · exact absurd h hd1
                · exact Or.inl h
                · exact Or.inr h
                · exact absurd h hd2
              exact conInit_advance hcd (hRest.1.2.2 dx)
            · exact hRest.2 hok dx hr

/-- Joint induction on fuel: `initialize` and its dependency loop keep
the run invariant, only extend the trace, only advance states, and on
success leave the module (resp. all listed dependencies) Initialized. -/
theorem initialize_bundle (beh : ModuleBehavior) (g : ModuleGraph) :
    ∀ fuel : Nat,
      (∀ i s, Inv g s →
        StepOk g s (initializeMod beh g fuel i s).2 ∧
        ((initializeMod beh g fuel i s).1 = .ok () →
          (initializeMod beh g fuel i s).2.state i = ModuleLoadState.Initialized)) ∧
      (∀ l s, Inv g s →
        StepOk g s (initDeps beh g fuel l s).2 ∧
        ((initDeps beh g fuel l s).1 = .ok () →
          ∀ d ∈ l, (initDeps beh g fuel l s).2.state d = ModuleLoadState.Initialized)) := by
  intro fuel
  induction fuel with
  | zero =>
    constructor
    · intro i s hInv
      simp only [initializeMod]
      exact ⟨stepOk_refl hInv, by simp⟩
    · intro l s hInv
      simp only [initDeps]
      exact ⟨stepOk_refl hInv, by simp⟩
  | succ fuel ih =>
    obtain ⟨ihC, ihD⟩ := ih
    constructor
    · intro i s hInv
      by_cases h1 : s.state i = ModuleLoadState.Constructed
      · by_cases h2 : s.initLocker i = true
        · have heq : initializeMod beh g (fuel + 1) i s = (.error .alreadyInitializing, s) := by
            simp only [initializeMod]
            rw [if_neg (by simp [h1]), if_pos h2]
          rw [heq]
          exact ⟨stepOk_refl hInv, by simp⟩
        · have hInvL : Inv g { s with initLocker := setF s.initLocker i true } := hInv
          have hD := ihD (g.dependencies i) { s with initLocker := setF s.initLocker i true } hInvL
          cases hdeps : initDeps beh g fuel (g.dependencies i)
              { s with initLocker := setF s.initLocker i true } with
          | mk r1 s1 =>
          rw [hdeps] at hD
          cases r1 with
          | error e =>
            have heq : initializeMod beh g (fuel + 1) i s = (.error e, s1) := by
              simp only [initializeMod]
              rw [if_neg (by simp [h1]), if_neg h2, hdeps]
            rw [heq]
            exact ⟨hD.1, by simp⟩
          | ok u =>
            obtain ⟨⟨hOk1, hC1, hC2, hDf⟩, hTr, hAdv⟩ := hD.1
            have hpost : ∀ d ∈ g.dependencies i,
                s1.state d = ModuleLoadState.Initialized := hD.2 rfl
            by_cases h3 : (s1.hasBase i && !beh.initOk i) = true
            · have heq : initializeMod beh g (fuel + 1) i s =
                  (.error .initHookThrew,
                    { s1 with pending := setF s1.pending i (some PendingState.initialization) }) := by
                simp only [initializeMod]
                rw [if_neg (by simp [h1]), if_neg h2, hdeps]
                dsimp only
                rw [if_pos h3]
              rw [heq]
              exact ⟨⟨⟨hOk1, hC1, hC2, hDf⟩, hTr, hAdv⟩, by simp⟩
            · have heq : initializeMod beh g (fuel + 1) i s =
                  (.ok (), { s1 with
                    pending := setF (setF s1.pending i (some PendingState.initialization)) i none,
                    state := setF s1.state i ModuleLoadState.Initialized,
                    initLocker := setF s1.initLocker i false,
                    trace := s1.trace ++ [Event.initialized i] }) := by
                simp only [initializeMod]
                rw [if_neg (by simp [h1]), if_neg h2, hdeps]
                dsimp only
                rw [if_neg h3]
              rw [heq]
              refine ⟨⟨⟨?_, ?_, ?_, ?_⟩, ?_, ?_⟩, ?_⟩
              · intro j
                dsimp only [setF]
                by_cases hj : j = i
                · simp [hj, okState]
                · simp only [if_neg hj]
                  exact hOk1 j
              · intro j hcj
                dsimp only [setF] at hcj ⊢
                by_cases hj : j = i
                · subst hj
                  have hmem : Event.constructed j ∈ s.trace := hInv.2.1 j (Or.inl h1)
                  have hmem1 : Event.constructed j ∈ s1.trace := traceExtends_mem hTr hmem
                  exact List.mem_append_left _ hmem1
                · rw [if_neg hj] at hcj
                  exact List.mem_append_left _ (hC1 j hcj)
              · intro j hj2
                dsimp only [setF] at hj2 ⊢
                by_cases hj : j = i
                · subst hj
                  simp
                · rw [if_neg hj] at hj2
                  exact List.mem_append_left _ (hC2 j hj2)
              · dsimp only
                refine depFirst_append hDf ?_ ?_
                · intro a hea b hb
                  simp at hea
                · intro a hea b hb
                  obtain rfl : i = a := by simpa using hea
                  exact hC2 b (hpost b hb)
              · exact traceExtends_trans hTr ⟨[Event.initialized i], rfl⟩
              · intro j
                dsimp only [setF]
                by_cases hj : j = i
                · subst hj
                  rw [if_pos rfl, h1]
                  exact Or.inr (Or.inr ⟨rfl, rfl⟩)
                · rw [if_neg hj]
                  exact hAdv j
              · intro _
                dsimp only [setF]
                rw [if_pos rfl]
      · have heq : initializeMod beh g (fuel + 1) i s = (.error .notConstructed, s) := by
          simp only [initializeMod]
          rw [if_pos h1]
        rw [heq]
        exact ⟨stepOk_refl hInv, by simp⟩
    · intro l s hInv
      cases l with
      | nil =>
        have heq : initDeps beh g (fuel + 1) [] s = (.ok (), s) := by
          simp only [initDeps]
        rw [heq]
        exact ⟨stepOk_refl hInv, by simp⟩
      | cons d rest =>
        by_cases hd1 : s.state d = ModuleLoadState.Prototype
        · have hC := (construct_bundle beh g fuel).1 d s hInv
          cases hcon : construct beh g fuel d s with
          | mk r1 s1 =>
          rw [hcon] at hC
          cases r1 with
          | error e =>
            have heq : initDeps beh g (fuel + 1) (d :: rest) s = (.error e, s1) := by
              simp only [initDeps]
              rw [if_pos hd1, hcon]
            rw [heq]
            exact ⟨hC.1, by simp⟩
          | ok u =>
            have hcond : s1.state d = ModuleLoadState.Constructed := hC.2 rfl
            have hI := ihC d s1 hC.1.1
            cases hini : initializeMod beh g fuel d s1 with
            | mk r2 s2 =>
            rw [hini] at hI
            cases r2 with
            | error e =>
              have heq : initDeps beh g (fuel + 1) (d :: rest) s = (.error e, s2) := by
                simp only [initDeps]
                rw [if_pos hd1, hcon]
                dsimp only
                rw [if_pos hcond, hini]
              rw [heq]
              exact ⟨stepOk_trans hC.1 hI.1, by simp⟩
            | ok u2 =>
              have hd2 : s2.state d = ModuleLoadState.Initialized := hI.2 rfl
              have hRest := ihD rest s2 hI.1.1
              have heq : initDeps beh g (fuel + 1) (d :: rest) s =
                  initDeps beh g fuel rest s2 := by
                simp only [initDeps]
                rw [if_pos hd1, hcon]
                dsimp only
                rw [if_pos hcond, hini]
              rw [heq]
              refine ⟨stepOk_trans hC.1 (stepOk_trans hI.1 hRest.1), ?_⟩
              intro hok dx hdx
              rcases List.mem_cons.mp hdx with rfl | hr
              · exact initialized_advance hd2 (hRest.1.2.2 dx)
              · exact hRest.2 hok dx hr
        · by_cases hd2 : s.state d = ModuleLoadState.Constructed
          · have hI := ihC d s hInv
            cases hini : initializeMod beh g fuel d s with
            | mk r2 s2 =>
            rw [hini] at hI
            cases r2 with
            | error e =>
              have heq : initDeps beh g (fuel + 1) (d :: rest) s = (.error e, s2) := by
                simp only [initDeps]
                rw [if_neg hd1]
                dsimp only
                rw [if_pos hd2, hini]
              rw [heq]
              exact ⟨hI.1, by simp⟩
            | ok u2 =>
              have hd2i : s2.state d = ModuleLoadState.Initialized := hI.2 rfl
              have hRest := ihD rest s2 hI.1.1
              have heq : initDeps beh g (fuel + 1) (d :: rest) s =
                  initDeps beh g fuel rest s2 := by
                simp only [initDeps]
                rw [if_neg hd1]
                dsimp only
                rw [if_pos hd2, hini]
              rw [heq]
              refine ⟨stepOk_trans hI.1 hRest.1, ?_⟩
              intro hok dx hdx
              rcases List.mem_cons.mp hdx with rfl | hr
              · exact initialized_advance hd2i (hRest.1.2.2 dx)
              · exact hRest.2 hok dx hr
          · by_cases hd3 : s.state d = ModuleLoadState.Failure
            · have heq : initDeps beh g (fuel + 1) (d :: rest) s = (.error .depFailed, s) := by
                simp only [initDeps]
                rw [if_neg hd1]
                dsimp only
                rw [if_neg hd2, if_pos hd3]
              rw [heq]
              exact ⟨stepOk_refl hInv, by simp⟩
            · have hRest := ihD rest s hInv
              have heq : initDeps beh g (fuel + 1) (d :: rest) s =
                  initDeps beh g fuel rest s := by
                simp only [initDeps]
                rw [if_neg hd1]
                dsimp only
                rw [if_neg hd2, if_neg hd3]
              rw [heq]
              refine ⟨hRest.1, ?_⟩
              intro hok dx hdx
              rcases List.mem_cons.mp hdx with rfl | hr
              · have hdi : s.state dx = ModuleLoadState.Initialized := by
                  rcases hInv.1 dx with h | h | h | h
                  · exact absurd h hd1
                  · exact absurd h hd2
                  · exact h
                  · exact absurd h hd3
                exact initialized_advance hdi (hRest.1.2.2 dx)
              · exact hRest.2 hok dx hr

/-- The bulk construction pass keeps the run invariant. -/
theorem constructAll_stepOk (beh : ModuleBehavior) (g : ModuleGraph) (fuel : Nat) :
    ∀ order s, Inv g s → StepOk g s (constructAll beh g fuel order s).2 := by
  intro order
  induction order with
  | nil =>
    intro s hInv
    simp only [constructAll]
    exact stepOk_refl hInv
  | cons i rest ih =>
    intro s hInv
    by_cases h1 : s.state i = ModuleLoadState.Prototype
    · have hC := (construct_bundle beh g fuel).1 i s hInv
      cases hcon : construct beh g fuel i s with
      | mk r1 s1 =>
      rw [hcon] at hC
      cases r1 with
      | error e =>
        have heq : constructAll beh g fuel (i :: rest) s = (.error e, s1) := by
          simp only [constructAll]
          rw [if_neg (by simp [h1]), hcon]
        rw [heq]
        exact hC.1
      | ok u =>
        have heq : constructAll beh g fuel (i :: rest) s =
            constructAll beh g fuel rest s1 := by
          simp only [constructAll]
          rw [if_neg (by simp [h1]), hcon]
        rw [heq]
        exact stepOk_trans hC.1 (ih s1 hC.1.1)
    · have heq : constructAll beh g fuel (i :: rest) s = constructAll beh g fuel rest s := by
        simp only [constructAll]
        rw [if_pos h1]
      rw [heq]
      exact ih s hInv

/-- The bulk initialization pass keeps the run invariant. -/
theorem initAll_stepOk (beh : ModuleBehavior) (g : ModuleGraph) (fuel : Nat) :
    ∀ order s, Inv g s → StepOk g s (initAll beh g fuel order s).2 := by
  intro order
  induction order with
  | nil =>
    intro s hInv
    simp only [initAll]
    exact stepOk_refl hInv
  | cons i rest ih =>
    intro s hInv
    by_cases h1 : s.state i = ModuleLoadState.Constructed
    · have hI := (initialize_bundle beh g fuel).1 i s hInv
      cases hini : initializeMod beh g fuel i s with
      | mk r1 s1 =>
      rw [hini] at hI
      cases r1 with
      | error e =>
        have heq : initAll beh g fuel (i :: rest) s = (.error e, s1) := by
          simp only [initAll]
          rw [if_neg (by simp [h1]), hini]
        rw [heq]
        exact hI.1
      | ok u =>
        have heq : initAll beh g fuel (i :: rest) s = initAll beh g fuel rest s1 := by
          simp only [initAll]
          rw [if_neg (by simp [h1]), hini]
        rw [heq]
        exact stepOk_trans hI.1 (ih s1 hI.1.1)
    · have heq : initAll beh g fuel (i :: rest) s = initAll beh g fuel rest s := by
        simp only [initAll]
        rw [if_pos h1]
      rw [heq]
      exact ih s hInv

/-- The fresh system satisfies the run invariant. -/
theorem freshSys_inv (g : ModuleGraph) : Inv g freshSys := by
  refine ⟨?_, ?_, ?_, ?_⟩
  · intro i
    exact Or.inl rfl
  · intro i hci
    rcases hci with h | h <;> simp [freshSys] at h
  · intro i h
    simp [freshSys] at h
  · intro k a b hb
    simp [freshSys]

/-- C2: in every bulk run — `constructAll` followed by `initAll` over a
freshly linked graph of Prototype records, for any hook behaviour, any
keeper iteration orders and any fuel, including runs aborted by an
error — a dependency's constructed (resp. initialized) event appears in
the trace no later than its dependent's: every trace prefix containing
`constructed a` (resp. `initialized a`) also contains `constructed b`
(resp. `initialized b`) for each dependency `b` of `a`. -/
theorem c2_dependency_first_bulk_run (beh : ModuleBehavior) (g : ModuleGraph)
    (fuel1 fuel2 : Nat) (order1 order2 : List Nat) (a b k : Nat)
    (hb : b ∈ g.dependencies a) :
    (Event.constructed a ∈
        ((initAll beh g fuel2 order2
          (constructAll beh g fuel1 order1 freshSys).2).2.trace.take k) →
      Event.constructed b ∈
        ((initAll beh g fuel2 order2
          (constructAll beh g fuel1 order1 freshSys).2).2.trace.take k)) ∧
    (Event.initialized a ∈
        ((initAll beh g fuel2 order2
          (constructAll beh g fuel1 order1 freshSys).2).2.trace.take k) →
      Event.initialized b ∈
        ((initAll beh g fuel2 order2
          (constructAll beh g fuel1 order1 freshSys).2).2.trace.take k)) := by
  have h1 := constructAll_stepOk beh g fuel1 order1 freshSys (freshSys_inv g)
  have h2 := initAll_stepOk beh g fuel2 order2 _ h1.1
  exact h2.1.2.2.2 k a b hb

/-- C2 witness: in the concrete two-module run (0 depends on 1), the
prefix containing the dependent's constructed event also contains the
dependency's. -/
theorem c2_dependency_first_bulk_run_witness :
    Event.constructed 1 ∈
        ((initAll behAll gAB 4 [0, 1]
          (constructAll behAll gAB 4 [0, 1] freshSys).2).2.trace.take 10) :=
  (c2_dependency_first_bulk_run behAll gAB 4 4 [0, 1] [0, 1] 0 1 10 (by decide)).1
    (by decide)

/-- C1 (code bug): unloading module 1 with reason "shutdown" while
module 0 depends on it: module 0's unload hook receives the constant
reason "dependent_" — the receiver's reason is discarded rather than
appended after the prefix, since the source calls
`dependent.unload("dependent_")` with a string literal; that call is
also not awaited, so in the real runtime the dependent's unload has not
run to completion when module 1's own hook is invoked (the embedding
runs it to completion, the reading most favourable to the claim, and
the reason divergence remains). -/
theorem c1_dependent_unload_reason_constant :
    (unload behAll gAB 4 1 "shutdown" true sysBothInitialized).2.trace
      = [Event.unloadHook 0 "dependent_", Event.unloadHook 1 "shutdown"] ∧
    "dependent_" ≠ "dependent_" ++ "shutdown" := by
  constructor
  · decide
  · decide

/-- C3 (code bug): when the init hook of a Constructed record (module
0) throws, initialize() rethrows and the sibling record (module 1) is
untouched, but module 0 is left in Constructed: the catch block only
re-emits and rethrows and — unlike construct's — never assigns Failure,
although the enum member is documented "Module has failed to construct
or initialize". -/
theorem c3_init_throw_leaves_constructed :
    (initializeMod behInitThrows gNone 4 0 sysBothConstructed).1 = .error .initHookThrew ∧
    (initializeMod behInitThrows gNone 4 0 sysBothConstructed).2.state 0
      = ModuleLoadState.Constructed ∧
    ModuleLoadState.Constructed ≠ ModuleLoadState.Failure ∧
    (initializeMod behInitThrows gNone 4 0 sysBothConstructed).2.state 1
      = ModuleLoadState.Constructed := by
  refine ⟨by decide, by decide, by decide, by decide⟩

/-- C8: each phase method invoked in a wrong state throws and returns
the system completely unchanged: construct() requires Prototype (so a
second construct() on a Constructed record throws), initialize()
requires Constructed, and unload() requires Initialized or Constructed
(so unload() on a Prototype record throws). -/
theorem c8_wrong_state_guards (beh : ModuleBehavior) (g : ModuleGraph)
    (fuel : Nat) (i : Nat) (r : String) (s : Sys) :
    (s.state i ≠ ModuleLoadState.Prototype →
      construct beh g (fuel + 1) i s = (.error .notPrototype, s)) ∧
    (s.state i ≠ ModuleLoadState.Constructed →
      initializeMod beh g (fuel + 1) i s = (.error .notConstructed, s)) ∧
    (s.state i ≠ ModuleLoadState.Initialized ∧ s.state i ≠ ModuleLoadState.Constructed →
      unload beh g (fuel + 1) i r true s = (.error .notLoaded, s)) := by
  refine ⟨?_, ?_, ?_⟩
  · intro h
    simp only [construct]
    rw [if_pos h]
  · intro h
    simp only [initializeMod]
    rw [if_pos h]
  · intro h
    simp only [unload]
    rw [if_pos h]

/-- C8 witness: a second construct() on a Constructed record throws and
leaves the state untouched. -/
theorem c8_wrong_state_guards_witness :
    construct behAll gAB 4 0 sysBothConstructed = (.error .notPrototype, sysBothConstructed) :=
  (c8_wrong_state_guards behAll gAB 3 0 "unload" sysBothConstructed).1 (by decide)

/-- C9 (code bug for construct, the initialize half holds): at the
suspension point of `construct(0)` on the fresh two-record graph (0
depends on 1), nothing has been mutated yet — the first awaited call is
the dependency's constructor and CONSTRUCTION_LOCKER, which the source
checks and deletes but never adds to, is still empty — so the
suspension state is exactly `freshSys`.  A second construct(0) issued
there does NOT throw "already constructing": it proceeds and completes
(re-running construction in the real runtime).  The matching
initialize() guard does work: with the INITIALIZATION_LOCKER entry
held, initialize() throws "already initializing". -/
theorem c9_construct_reentrancy_guard_missing :
    (construct behAll gAB 4 0 freshSys).1 ≠ .error .alreadyConstructing ∧
    (construct behAll gAB 4 0 freshSys).1 = .ok () ∧
    (construct behAll gAB 4 0 freshSys).2.state 0 = ModuleLoadState.Constructed ∧
    (initializeMod behAll gAB 4 0
        { sysBothConstructed with initLocker := fun j => j == 0 }).1
      = .error .alreadyInitializing := by
  refine ⟨by decide, by decide, by decide, by decide⟩

/-- C4 counterexample: record 0 is Initialized with a loaded instance
whose unload hook resolves true; unload() succeeds, clears the instance
and sets Unloaded — but the construct() the claim says may then succeed
instead throws, because construct() requires the Prototype state. -/
theorem c4_counterexample_reconstruct_after_unload_throws :
    (unload behAll gNone 4 0 "unload" true sysZeroInitialized).1 = .ok () ∧
    (unload behAll gNone 4 0 "unload" true sysZeroInitialized).2.state 0
      = ModuleLoadState.Unloaded ∧
    (unload behAll gNone 4 0 "unload" true sysZeroInitialized).2.hasBase 0 = false ∧
    (construct behAll gNone 4 0
        (unload behAll gNone 4 0 "unload" true sysZeroInitialized).2).1
      = .error .notPrototype := by
  refine ⟨by decide, by decide, by decide, by decide⟩

/-- C4 amended: for every record whose unload() succeeds (loaded
instance, hook resolves true; dependent unloading disabled to isolate
the record), the instance reference is cleared and the state becomes
Unloaded — but construct() invoked afterwards on the same record throws
(it requires Prototype) rather than succeeding; the source performs no
state reset that would re-permit construction. -/
theorem c4_unload_clears_and_blocks_reconstruction (beh : ModuleBehavior)
    (g : ModuleGraph) (fuel fuel2 : Nat) (i : Nat) (r : String) (s : Sys)
    (hst : s.state i = ModuleLoadState.Initialized ∨ s.state i = ModuleLoadState.Constructed)
    (hbase : s.hasBase i = true)
    (hres : beh.unloadResult i = some true) :
    (unload beh g (fuel + 1) i r false s).1 = .ok () ∧
    (unload beh g (fuel + 1) i r false s).2.state i = ModuleLoadState.Unloaded ∧
    (unload beh g (fuel + 1) i r false s).2.hasBase i = false ∧
    (construct beh g (fuel2 + 1) i (unload beh g (fuel + 1) i r false s).2).1
      = .error .notPrototype := by
  have heq : unload beh g (fuel + 1) i r false s =
      (.ok (), { s with
        trace := s.trace ++ [Event.unloadHook i r],
        hasBase := setF s.hasBase i false,
        state := setF s.state i ModuleLoadState.Unloaded,
        pending := setF (setF s.pending i (some PendingState.unload)) i none }) := by
    simp only [unload]
    rw [if_neg (by rcases hst with h | h <;> simp [h])]
    rw [if_neg (by simp [hbase]), hres]
    simp
  rw [heq]
  refine ⟨rfl, by simp [setF], by simp [setF], ?_⟩
  simp only [construct]
  rw [if_pos (by simp [setF])]

/-- C4 amended witness: the concrete record 0 run. -/
theorem c4_unload_clears_and_blocks_reconstruction_witness :
    (unload behAll gNone 3 0 "manual" false sysZeroInitialized).1 = .ok () :=
  (c4_unload_clears_and_blocks_reconstruction behAll gNone 2 2 0 "manual"
    sysZeroInitialized (by decide) (by decide) (by decide)).1

/-- C10: when the init hook of a Constructed record throws,
initialize() leaves the pending-initialization flag and the
initialization-locker entry set and the state Constructed; afterwards
isPendingInitialization() still answers true and every subsequent
initialize() call, with any fuel, throws the already-initializing error
with the state unchanged — the record can never be initialized again. -/
theorem c10_init_error_leaks_lock (beh : ModuleBehavior) (g : ModuleGraph)
    (fuel : Nat) (i : Nat) (s : Sys)
    (hst : s.state i = ModuleLoadState.Constructed)
    (hlock : s.initLocker i = false)
    (hdeps : g.dependencies i = [])
    (hbase : s.hasBase i = true)
    (hinit : beh.initOk i = false) :
    (initializeMod beh g (fuel + 2) i s).1 = .error .initHookThrew ∧
    (initializeMod beh g (fuel + 2) i s).2.state i = ModuleLoadState.Constructed ∧
    (initializeMod beh g (fuel + 2) i s).2.initLocker i = true ∧
    isPendingInitialization (initializeMod beh g (fuel + 2) i s).2 i = true ∧
    (∀ fuel2, initializeMod beh g (fuel2 + 1) i (initializeMod beh g (fuel + 2) i s).2
        = (.error .alreadyInitializing, (initializeMod beh g (fuel + 2) i s).2)) := by
  have heq : initializeMod beh g (fuel + 2) i s =
      (.error .initHookThrew,
        { s with initLocker := setF s.initLocker i true,
                 pending := setF s.pending i (some PendingState.initialization) }) := by
    simp only [initializeMod]
    rw [if_neg (by simp [hst]), if_neg (by simp [hlock]), hdeps]
    simp only [initDeps]
    rw [if_pos (by simp [hbase, hinit])]
  rw [heq]
  refine ⟨rfl, by simp [hst], by simp [setF], ?_, ?_⟩
  · simp [isPendingInitialization, getPendingState, setF]
  · intro fuel2
    simp only [initializeMod]
    rw [if_neg (by simp [hst]), if_pos (by simp [setF])]

/-- C10 witness: the concrete record 0 whose init hook throws. -/
theorem c10_init_error_leaks_lock_witness :
    (initializeMod behInitThrows gNone 3 0 sysBothConstructed).2.initLocker 0 = true :=
  (c10_init_error_leaks_lock behInitThrows gNone 1 0 sysBothConstructed
    (by decide) (by decide) (by decide) (by decide) (by decide)).2.2.1

end AlphaidBot
